import Mathlib

/-!
Verification of the Game of Life repository (Grid / World / Zoo).

The source files are `grid.h`, `world.h` and `zoo.cpp`.  The codec and
pattern functions are embedded from `zoo.cpp`.  The implementations of
`Grid` (grid.cpp) and `World` (world.cpp) are not part of the sources,
only their headers; those parts are modelled from the specification, as
marked in the corresponding doc comments.
-/

/-- A Cell is a char limited to two named values, `Cell::DEAD` (the space
character) and `Cell::ALIVE` (the hash character).  Embedded as a closed
two-valued type. -/
inductive Cell where
  | dead : Cell
  | alive : Cell
deriving DecidableEq, Repr

/-- Modelled from the spec: grid.cpp is not under src/.  A Grid owns a
width, a height and a flat cell buffer of exactly `width * height`
entries stored in row-major order (index = `y * width + x`).  The length
invariant is carried as a side condition `Grid.Wf` in the theorems. -/
structure Grid where
  width : Nat
  height : Nat
  cells : List Cell
deriving DecidableEq, Repr

/-- The buffer-length invariant of a Grid: the cell buffer has exactly
`width * height` entries. -/
def Grid.Wf (g : Grid) : Prop := g.cells.length = g.width * g.height

instance (g : Grid) : Decidable g.Wf := by
  unfold Grid.Wf
  infer_instance

/-- Modelled from the spec: the `Grid(width, height)` constructor builds a
grid whose cells all default to Dead. -/
def Grid.mkDead (width height : Nat) : Grid :=
  ⟨width, height, List.replicate (width * height) Cell.dead⟩

/-- Modelled from the spec: row-major index used by the buffer,
`y * width + x`. -/
def Grid.get_index (g : Grid) (x y : Nat) : Nat := y * g.width + x

/-- Modelled from the spec: `get(x, y)` returns the cell at the row-major
index.  All claim statements only use it at in-bounds coordinates, where
the default value is never produced. -/
def Grid.get (g : Grid) (x y : Nat) : Cell :=
  g.cells.getD (g.get_index x y) Cell.dead

/-- Modelled from the spec: `set(x, y, value)` writes the cell at the
row-major index.  An out-of-bounds `List.set` is the identity, so the
code paths that would raise OutOfRange are tracked separately (see
`BinSt.oob`). -/
def Grid.set (g : Grid) (x y : Nat) (value : Cell) : Grid :=
  ⟨g.width, g.height, g.cells.set (g.get_index x y) value⟩

/-- The bounds contract of `Grid::get`/`Grid::set`: both coordinates lie
inside `[0, width) x [0, height)`. -/
def Grid.inBounds (g : Grid) (x y : Nat) : Bool :=
  decide (x < g.width) && decide (y < g.height)

namespace Zoo

/-- From zoo.cpp: `Zoo::glider()` constructs a 3x3 grid containing a
glider. -/
def glider : Grid :=
  ((((Grid.mkDead 3 3).set 1 0 Cell.alive).set 2 1 Cell.alive).set 2 2
      Cell.alive).set 1 2 Cell.alive |>.set 0 2 Cell.alive

/-- From zoo.cpp: `Zoo::r_pentomino()` constructs a 3x3 grid containing an
r-pentomino. -/
def r_pentomino : Grid :=
  ((((Grid.mkDead 3 3).set 1 0 Cell.alive).set 2 0 Cell.alive).set 0 1
      Cell.alive).set 1 1 Cell.alive |>.set 1 2 Cell.alive

/-- From zoo.cpp: `Zoo::light_weight_spaceship()` constructs a 5x4 grid
containing a light weight spaceship. -/
def light_weight_spaceship : Grid :=
  ((((((((Grid.mkDead 5 4).set 1 0 Cell.alive).set 4 0 Cell.alive).set 0 1
      Cell.alive).set 0 2 Cell.alive).set 4 2 Cell.alive).set 0 3
      Cell.alive).set 1 3 Cell.alive).set 2 3 Cell.alive |>.set 3 3 Cell.alive

end Zoo

/-- The error kinds of the design (section 7 of the spec).  The source
throws `std::runtime_error` with a message; the kinds are the spec's
taxonomy over those messages. -/
inductive ErrKind where
  | ioError : ErrKind
  | formatError : ErrKind
  | outOfRange : ErrKind
  | invalidArgument : ErrKind
deriving DecidableEq, Repr

/-- Modelled from the spec: classification of each thrown message into the
error taxonomy of section 7.  `IOError` covers the open/read/write
failures, `OutOfRange` the Grid coordinate contract, `InvalidArgument`
negative construction dimensions, and every malformed-content message is
a `FormatError`. -/
def errKind (msg : String) : ErrKind :=
  if msg = "Couldn\x27t open file" then ErrKind.ioError
  else if msg = "Grid coordinate out of range" then ErrKind.outOfRange
  else if msg = "Invalid grid dimensions" then ErrKind.invalidArgument
  else ErrKind.formatError

/-- The serialization character of a cell: space for Dead, hash for
Alive. -/
def cellChar : Cell → Char
  | Cell.dead => ' '
  | Cell.alive => '#'

/-- An ascii `.gol` file, abstracted to its parsed shape: the two header
integers extracted by `file >> width >> height` and the data lines
returned by the subsequent `getline` calls.  The decimal formatting and
re-parsing of the two header integers by the iostream operators is
absorbed into this representation. -/
structure AsciiFile where
  headerW : Int
  headerH : Int
  lines : List String
deriving DecidableEq, Repr

namespace Zoo

/-- From zoo.cpp, `Zoo::save_ascii` (lines 248-267): writes the header
line with the width and height, then one line per row, each Dead cell as
a space and each Alive cell as a hash. -/
def save_ascii (g : Grid) : AsciiFile :=
  ⟨(g.width : Int), (g.height : Int),
    (List.range g.height).map (fun y =>
      String.mk ((List.range g.width).map (fun x => cellChar (g.get x y))))⟩

/-- From zoo.cpp (lines 191-204): the per-character decoding inside
`Zoo::load_ascii`; the Alive character is compared first, then the Dead
character, anything else is the unknown-character failure. -/
def readCellChar (c : Char) : Except String Cell :=
  if c = cellChar Cell.alive then Except.ok Cell.alive
  else if c = cellChar Cell.dead then Except.ok Cell.dead
  else Except.error "Unknown character"

/-- From zoo.cpp (lines 180-207): the inner `while (x < width)` loop of
`Zoo::load_ascii`.  `rem` counts the remaining iterations
(`width - x`); `line.at(x)` past the end of the line is the
line-ends-unexpectedly failure. -/
def parseRowAux (line : List Char) (y : Nat) : Nat → Nat → Grid → Except String Grid
  | 0, _, g => Except.ok g
  | rem + 1, x, g =>
    match line.get? x with
    | none => Except.error "Line ends unexpectedly"
    | some c =>
      match readCellChar c with
      | Except.error e => Except.error e
      | Except.ok cell => parseRowAux line y rem (x + 1) (g.set x y cell)

/-- From zoo.cpp (lines 172-215): the outer `while (getline(file, line)
and y < height)` loop of `Zoo::load_ascii`, followed by the final
`y != height` check.  A line longer than the width fails before any
character is read; once `y` reaches the height the loop stops reading,
so trailing lines are discarded. -/
def loadLines (width height : Nat) : List String → Nat → Grid → Except String Grid
  | [], y, g => if y ≠ height then Except.error "Not enough lines to read" else Except.ok g
  | line :: rest, y, g =>
    if y < height then
      if line.length > width then Except.error "Line ends unexpectedly"
      else
        match parseRowAux line.toList y width 0 g with
        | Except.error e => Except.error e
        | Except.ok g2 => loadLines width height rest (y + 1) g2
    else Except.ok g

/-- From zoo.cpp, `Zoo::load_ascii` (lines 149-219): checks the header for
negative dimensions, builds a Dead grid of the declared size, then runs
the line-reading loop. -/
def load_ascii (f : AsciiFile) : Except String Grid :=
  if f.headerW < 0 ∨ f.headerH < 0 then Except.error "Width or height is negative"
  else
    loadLines f.headerW.toNat f.headerH.toNat f.lines 0
      (Grid.mkDead f.headerW.toNat f.headerH.toNat)

/-- From zoo.cpp (lines 151-156): `Zoo::load_ascii` including the
`file.is_open()` check; whether the path can be opened for reading is
the boolean input. -/
def load_ascii_io (canOpen : Bool) (f : AsciiFile) : Except String Grid :=
  if canOpen then load_ascii f else Except.error "Couldn\x27t open file"

/-- From zoo.cpp, `Zoo::save_ascii` (lines 250-255) including the
`file.is_open()` check; whether the path can be opened for writing is
the boolean input.  On failure nothing is written and the thrown message
is, verbatim from the source, the width-or-height-is-negative one. -/
def save_ascii_io (canOpen : Bool) (g : Grid) : Except String AsciiFile :=
  if canOpen then Except.ok (save_ascii g)
  else Except.error "Width or height is negative"

end Zoo

/-- The bit written for a cell by the binary format: Alive is 1, Dead
is 0. -/
def cellBit : Cell → Nat
  | Cell.alive => 1
  | Cell.dead => 0

/-- From zoo.cpp (lines 392-416): the row-major traversal of the grid by
the double loop of `Zoo::save_binary`, as the list of bits it feeds into
the byte buffer (y outer, x inner, so x varies fastest). -/
def rowBits (g : Grid) : List Nat :=
  ((List.range g.height).map (fun y =>
    (List.range g.width).map (fun x => cellBit (g.get x y)))).flatten

/-- From zoo.cpp (lines 388-421): the byte-packing loop of
`Zoo::save_binary`.  `buffer` accumulates bits least-significant-bit
first (`buffer |= bit << size`), a byte is emitted when eight bits have
been gathered, and a final partial byte is emitted zero-padded. -/
def packBits : List Nat → Nat → Nat → List Nat
  | [], size, buffer => if 0 < size then [buffer] else []
  | b :: rest, size, buffer =>
    let buf2 := buffer ||| (b <<< size)
    if size + 1 > 7 then buf2 :: packBits rest 0 0
    else packBits rest (size + 1) buf2

/-- The four bytes written for a 32-bit int, least significant byte
first.  The source writes the platform byte representation of an `int`;
little-endian order is the documented choice (spec section 9). -/
def encLE32 (n : Nat) : List Nat :=
  [n % 256, n / 256 % 256, n / 65536 % 256, n / 16777216 % 256]

/-- The unsigned value of four little-endian bytes. -/
def decLE32 (bytes : List Nat) : Nat :=
  bytes.getD 0 0 + 256 * bytes.getD 1 0 + 65536 * bytes.getD 2 0 +
    16777216 * bytes.getD 3 0

/-- The signed 32-bit value of four little-endian bytes, two's
complement. -/
def decInt32 (bytes : List Nat) : Int :=
  let n := decLE32 bytes
  if n < 2147483648 then (n : Int) else (n : Int) - 4294967296

namespace Zoo

/-- From zoo.cpp, `Zoo::save_binary` (lines 375-424): the byte stream
written to the file; the 4-byte width, the 4-byte height, then the
bit-packed cells. -/
def save_binary (g : Grid) : List Nat :=
  encLE32 g.width ++ encLE32 g.height ++ packBits (rowBits g) 0 0

end Zoo

/-- The loop state of `Zoo::load_binary` (zoo.cpp lines 303-337): the
grid being filled, the cursor `x`, `y`, the `count` of cells written,
and whether a `Grid::set` call was made outside the bounds contract
(which in the source raises OutOfRange; reachable only when the declared
width is zero and a payload byte exists). -/
structure BinSt where
  g : Grid
  x : Nat
  y : Nat
  count : Nat
  oob : Bool
deriving Repr

/-- From zoo.cpp (lines 312-335): one iteration of the inner
`for (int i = 0; i < 8; i++)` loop of `Zoo::load_binary`: wrap the
cursor to the next row when `x` has reached the width, write the bit as
a cell while the grid is not yet full, then advance `x`. -/
def loadBitStep (width height : Nat) (s : BinSt) (b : Bool) : BinSt :=
  let s1 := if width ≤ s.x then { s with x := 0, y := s.y + 1 } else s
  let s2 :=
    if s1.y < height then
      { s1 with
        g := s1.g.set s1.x s1.y (if b then Cell.alive else Cell.dead)
        count := s1.count + 1
        oob := s1.oob || !(s1.g.inBounds s1.x s1.y) }
    else s1
  { s2 with x := s2.x + 1 }

/-- From zoo.cpp (lines 308-337): the processing of one payload byte by
`Zoo::load_binary`: skipped entirely once the grid is full, otherwise
its eight bits are consumed least-significant first. -/
def loadByteStep (width height : Nat) (s : BinSt) (c : Nat) : BinSt :=
  if s.y < height then
    (List.range 8).foldl (fun t i => loadBitStep width height t (c.testBit i)) s
  else s

namespace Zoo

/-- From zoo.cpp (lines 303-345): the body of `Zoo::load_binary` after
the header has been read: fold the payload bytes over the loop state
starting from a Dead grid of the declared size, then fail if the count
of written cells differs from the total.  An out-of-bounds `Grid::set`
raises OutOfRange at the point of the call, before the count check. -/
def load_binary_core (width height : Nat) (payload : List Nat) : Except String Grid :=
  let s := payload.foldl (loadByteStep width height) ⟨Grid.mkDead width height, 0, 0, 0, false⟩
  if s.oob then Except.error "Grid coordinate out of range"
  else if s.count ≠ width * height then Except.error "Unexpected end of file"
  else Except.ok s.g

/-- From zoo.cpp, `Zoo::load_binary` (lines 290-346): reads the two
4-byte header ints, builds the grid and runs the payload loop.  A stream
shorter than the header leaves the two ints indeterminate in the source;
that branch is modelled as the same end-of-file failure and no claim
depends on it.  Negative declared dimensions reach the `Grid`
constructor, modelled from the spec as InvalidArgument. -/
def load_binary (bytes : List Nat) : Except String Grid :=
  if bytes.length < 8 then Except.error "Unexpected end of file"
  else
    let wI := decInt32 (bytes.take 4)
    let hI := decInt32 ((bytes.drop 4).take 4)
    if wI < 0 ∨ hI < 0 then Except.error "Invalid grid dimensions"
    else load_binary_core wI.toNat hI.toNat (bytes.drop 8)

end Zoo

/-- The eight neighbour offsets examined by
`World::count_neighbours`. -/
def neighbourOffsets : List (Int × Int) :=
  [(-1, -1), (0, -1), (1, -1), (-1, 0), (1, 0), (-1, 1), (0, 1), (1, 1)]

/-- Modelled from the spec: world.cpp is not under src/.
`count_neighbours(x, y, toroidal)` examines the eight surrounding cells;
without wraparound an out-of-bounds neighbour counts as Dead, with
wraparound the coordinates are taken modulo the width and height. -/
def World.count_neighbours (g : Grid) (x y : Nat) (toroidal : Bool) : Nat :=
  neighbourOffsets.countP (fun d =>
    let nx : Int := (x : Int) + d.1
    let ny : Int := (y : Int) + d.2
    if toroidal then
      decide (g.get ((nx % (g.width : Int)).toNat) ((ny % (g.height : Int)).toNat) = Cell.alive)
    else
      decide (0 ≤ nx ∧ nx < (g.width : Int) ∧ 0 ≤ ny ∧ ny < (g.height : Int) ∧
        g.get nx.toNat ny.toNat = Cell.alive))

/-- Modelled from the spec: the standard Game of Life rule applied to one
cell given its Alive-neighbour count: a Dead cell with exactly three
Alive neighbours becomes Alive, an Alive cell with two or three Alive
neighbours stays Alive, every other cell becomes Dead. -/
def nextCell : Cell → Nat → Cell
  | Cell.dead, n => if n = 3 then Cell.alive else Cell.dead
  | Cell.alive, n => if n = 2 ∨ n = 3 then Cell.alive else Cell.dead

/-- Modelled from the spec: a World holds two equally sized grids, the
current state and the next-state scratch buffer. -/
structure World where
  current : Grid
  next : Grid
deriving Repr

/-- The World invariant: both buffers are well formed and of equal
dimensions. -/
def World.Wf (w : World) : Prop :=
  w.current.Wf ∧ w.next.Wf ∧ w.next.width = w.current.width ∧
    w.next.height = w.current.height

/-- Modelled from the spec: world.cpp is not under src/.  `step` writes,
for every cell of the current grid in row-major order, the rule's next
state into the scratch buffer, then swaps the two buffers. -/
def World.step (w : World) (toroidal : Bool) : World :=
  let cur := w.current
  let computed :=
    (List.range (cur.width * cur.height)).foldl
      (fun g i =>
        g.set (i % cur.width) (i / cur.width)
          (nextCell (cur.get (i % cur.width) (i / cur.width))
            (World.count_neighbours cur (i % cur.width) (i / cur.width) toroidal)))
      w.next
  ⟨computed, cur⟩

deriving instance DecidableEq for Except

/-- The cell decoded from a serialization character, Alive for the hash
character and Dead otherwise; it agrees with `Zoo.readCellChar` on the
two valid characters. -/
def charCell (c : Char) : Cell := if c = '#' then Cell.alive else Cell.dead

/-- A well-formed ascii data line for a given width: exactly that many
characters, each one the Dead or the Alive character. -/
def wfLine (w : Nat) (line : String) : Bool :=
  line.length == w && line.toList.all (fun c => c == '#' || c == ' ')

/-- The bit stream carried by a byte list, least-significant bit of each
byte first, exactly the order in which `Zoo::load_binary` consumes bits
and `Zoo::save_binary` produces them. -/
def allBits (bytes : List Nat) : List Bool :=
  (bytes.map (fun c => (List.range 8).map c.testBit)).flatten

theorem charCell_cellChar (c : Cell) : charCell (cellChar c) = c := by
  cases c <;> decide

theorem readCellChar_ok {c : Char} (h : c = '#' ∨ c = ' ') :
    Zoo.readCellChar c = Except.ok (charCell c) := by
  rcases h with h | h <;> subst h <;> decide

theorem wfLine_spec {w : Nat} {line : String} (hwf : wfLine w line = true) :
    line.length = w ∧
      ∀ k, k < w → ∃ c, line.toList.get? k = some c ∧ (c = '#' ∨ c = ' ') := by
  have hlen : line.toList.length = line.length := rfl
  simp only [wfLine, Bool.and_eq_true, beq_iff_eq, List.all_eq_true] at hwf
  obtain ⟨h1, h2⟩ := hwf
  refine ⟨h1, fun k hk => ?_⟩
  have hk2 : k < line.toList.length := by omega
  refine ⟨line.toList[k], ?_, ?_⟩
  · rw [List.get?_eq_getElem?, List.getElem?_eq_getElem hk2]
  · have := h2 line.toList[k] (List.getElem_mem hk2)
    simp only [Bool.or_eq_true, beq_iff_eq] at this
    exact this

theorem cells_getD_set (l : List Cell) (i j : Nat) (v d : Cell) :
    (l.set i v).getD j d = if i = j ∧ j < l.length then v else l.getD j d := by
  simp only [List.getD_eq_getElem?_getD, List.getElem?_set]
  by_cases h1 : i = j
  · subst h1
    by_cases h2 : i < l.length
    · simp [h2]
    · rw [List.getElem?_eq_none (by omega)]
      simp [h2]
  · simp [h1]

theorem foldl_set_length (idxs : List Nat) (f : Nat → Cell) (l : List Cell) :
    (idxs.foldl (fun cs i => cs.set i (f i)) l).length = l.length := by
  induction idxs generalizing l with
  | nil => rfl
  | cons a rest ih => simp only [List.foldl_cons, ih, List.length_set]

theorem foldl_set_off_length (idxs : List Nat) (m : Nat) (f : Nat → Cell)
    (l : List Cell) :
    (idxs.foldl (fun cs i => cs.set (m + i) (f i)) l).length = l.length := by
  induction idxs generalizing l with
  | nil => rfl
  | cons a rest ih => simp only [List.foldl_cons, ih, List.length_set]

theorem foldl_set_off_getD (f : Nat → Cell) (d : Cell) :
    ∀ (n a : Nat) (l : List Cell) (m j : Nat),
      ((List.range' a n).foldl (fun cs i => cs.set (m + i) (f i)) l).getD j d =
        if m + a ≤ j ∧ j < m + a + n ∧ j < l.length then f (j - m)
        else l.getD j d := by
  intro n
  induction n with
  | zero =>
    intro a l m j
    rw [if_neg (by omega)]
    rfl
  | succ n ih =>
    intro a l m j
    rw [List.range'_succ, List.foldl_cons, ih (a + 1) (l.set (m + a) (f a)) m j,
      List.length_set, cells_getD_set]
    by_cases hj : m + a = j ∧ j < l.length
    · rw [if_neg (by omega), if_pos hj, if_pos (by omega)]
      have hjm : j - m = a := by omega
      rw [hjm]
    · by_cases hwin : m + (a + 1) ≤ j ∧ j < m + (a + 1) + n ∧ j < l.length
      · rw [if_pos hwin, if_pos (by omega)]
      · rw [if_neg hwin, if_neg hj, if_neg (by omega)]

theorem parseRowAux_ok (line : List Char) (y : Nat) :
    ∀ (rem x : Nat) (g : Grid),
      (∀ j, x ≤ j → j < x + rem → ∃ c, line.get? j = some c ∧ (c = '#' ∨ c = ' ')) →
      Zoo.parseRowAux line y rem x g =
        Except.ok ⟨g.width, g.height,
          (List.range' x rem).foldl
            (fun cs j => cs.set (y * g.width + j) (charCell (line.getD j ' ')))
            g.cells⟩ := by
  intro rem
  induction rem with
  | zero =>
    intro x g hval
    rfl
  | succ rem ih =>
    intro x g hval
    obtain ⟨c, hc, hv⟩ := hval x (Nat.le_refl x) (by omega)
    rw [Zoo.parseRowAux, hc]
    simp only [readCellChar_ok hv]
    rw [ih (x + 1) (g.set x y (charCell c))
      (fun j hj1 hj2 => hval j (by omega) (by omega))]
    rw [List.range'_succ, List.foldl_cons]
    have hgd : line.getD x ' ' = c := by
      rw [List.getD_eq_getElem?_getD, ← List.get?_eq_getElem?, hc]
      rfl
    rw [hgd]
    rfl

theorem parseRowAux_err (line : List Char) (y : Nat) :
    ∀ (rem x : Nat) (g : Grid), x ≤ line.length → line.length < x + rem →
      (∀ j, x ≤ j → j < line.length → ∃ c, line.get? j = some c ∧ (c = '#' ∨ c = ' ')) →
      Zoo.parseRowAux line y rem x g = Except.error "Line ends unexpectedly" := by
  intro rem
  induction rem with
  | zero =>
    intro x g h1 h2 hval
    omega
  | succ rem ih =>
    intro x g h1 h2 hval
    by_cases hx : x = line.length
    · have hnone : line.get? x = none := by
        rw [List.get?_eq_getElem?, List.getElem?_eq_none (by omega)]
      rw [Zoo.parseRowAux, hnone]
    · obtain ⟨c, hc, hv⟩ := hval x (Nat.le_refl x) (by omega)
      rw [Zoo.parseRowAux, hc]
      simp only [readCellChar_ok hv]
      exact ih (x + 1) (g.set x y (charCell c)) (by omega) (by omega)
        (fun j hj1 hj2 => hval j (by omega) hj2)

theorem loadLines_ok (w h : Nat) :
    ∀ (lines : List String) (y : Nat) (G : Grid),
      G.width = w → G.height = h → G.cells.length = w * h → y ≤ h →
      h - y ≤ lines.length →
      (∀ k, k < h - y → wfLine w (lines.getD k "") = true) →
      ∃ R : Grid, Zoo.loadLines w h lines y G = Except.ok R ∧ R.width = w ∧
        R.height = h ∧ R.cells.length = w * h ∧
        ∀ i, i < w * h →
          R.cells.getD i Cell.dead =
            if i < y * w then G.cells.getD i Cell.dead
            else charCell ((lines.getD (i / w - y) "").toList.getD (i % w) ' ') := by
  intro lines
  induction lines with
  | nil =>
    intro y G h1 h2 h3 h4 h5 h6
    have hy : y = h := by
      simp only [List.length_nil] at h5
      omega
    subst hy
    refine ⟨G, by simp [Zoo.loadLines], h1, h2, h3, fun i hi => ?_⟩
    rw [if_pos (by rw [Nat.mul_comm]; omega)]
  | cons line rest ih =>
    intro y G h1 h2 h3 h4 h5 h6
    by_cases hy : y < h
    · have hwf := h6 0 (by omega)
      simp only [List.getD_cons_zero] at hwf
      obtain ⟨hlen, hchars⟩ := wfLine_spec hwf
      have hlenT : line.toList.length = line.length := rfl
      have hnotlong : ¬ line.length > w := by omega
      rw [Zoo.loadLines, if_pos hy, if_neg hnotlong,
        parseRowAux_ok line.toList y w 0 G
          (fun j hj1 hj2 => hchars j (by omega))]
      set G2 : Grid := ⟨G.width, G.height,
        (List.range' 0 w).foldl
          (fun cs j => cs.set (y * G.width + j) (charCell (line.toList.getD j ' ')))
          G.cells⟩ with hG2
      have hG2w : G2.width = w := h1
      have hG2h : G2.height = h := h2
      have hG2len : G2.cells.length = w * h := by
        rw [hG2]
        simp only [h1]
        rw [foldl_set_off_length]
        exact h3
      have hG2get : ∀ i, i < w * h →
          G2.cells.getD i Cell.dead =
            if y * w ≤ i ∧ i < y * w + w then
              charCell (line.toList.getD (i - y * w) ' ')
            else G.cells.getD i Cell.dead := by
        intro i hi
        rw [hG2]
        simp only [h1]
        rw [foldl_set_off_getD]
        by_cases hwin : y * w ≤ i ∧ i < y * w + w
        · rw [if_pos (by omega), if_pos hwin]
        · rw [if_neg (by omega), if_neg hwin]
      obtain ⟨R, hR1, hR2, hR3, hR4, hR5⟩ := ih (y + 1) G2 hG2w hG2h hG2len
        (by omega)
        (by
          simp only [List.length_cons] at h5
          omega)
        (fun k hk => by
          have := h6 (k + 1) (by omega)
          simpa using this)
      refine ⟨R, hR1, hR2, hR3, hR4, fun i hi => ?_⟩
      rw [hR5 i hi]
      have hyw : (y + 1) * w = y * w + w := by rw [Nat.succ_mul]
      by_cases hlow : i < y * w
      · rw [if_pos (by omega), if_pos hlow, hG2get i hi, if_neg (by omega)]
      · by_cases hrow : i < y * w + w
        · have hwpos : 0 < w := by omega
          rw [if_pos (by omega), if_neg hlow, hG2get i hi, if_pos (by omega)]
          have hsplit : i = (i - y * w) + y * w := by omega
          have hidiv : i / w = y := by
            conv_lhs => rw [hsplit]
            rw [Nat.add_mul_div_right _ _ hwpos, Nat.div_eq_of_lt (by omega)]
            omega
          have himod : i % w = i - y * w := by
            conv_lhs => rw [hsplit]
            rw [Nat.add_mul_mod_self_right, Nat.mod_eq_of_lt (by omega)]
          rw [hidiv, himod]
          simp
        · have hwpos : 0 < w := by
            rcases Nat.eq_zero_or_pos w with hw0 | hw0
            · subst hw0
              simp at hi
            · exact hw0
          rw [if_neg (by omega), if_neg hlow]
          have hdivge : y + 1 ≤ i / w := by
            rw [Nat.le_div_iff_mul_le hwpos]
            omega
          have hstep : i / w - y = (i / w - (y + 1)) + 1 := by omega
          rw [hstep]
          simp
    · have hy2 : y = h := by omega
      subst hy2
      refine ⟨G, by rw [Zoo.loadLines, if_neg hy], h1, h2, h3, fun i hi => ?_⟩
      rw [if_pos (by rw [Nat.mul_comm]; omega)]

/-- C9: each of the three pattern constructors returns a grid exactly the
size of its pattern's bounding box: dimensions 3x3, 3x3 and 5x4, with an
Alive cell in row 0, in the last row, in column 0 and in the last
column. -/
theorem c9_patterns_bounding_box :
    (Zoo.glider.width = 3 ∧ Zoo.glider.height = 3 ∧
      (∃ x, x < 3 ∧ Zoo.glider.get x 0 = Cell.alive) ∧
      (∃ x, x < 3 ∧ Zoo.glider.get x 2 = Cell.alive) ∧
      (∃ y, y < 3 ∧ Zoo.glider.get 0 y = Cell.alive) ∧
      (∃ y, y < 3 ∧ Zoo.glider.get 2 y = Cell.alive)) ∧
    (Zoo.r_pentomino.width = 3 ∧ Zoo.r_pentomino.height = 3 ∧
      (∃ x, x < 3 ∧ Zoo.r_pentomino.get x 0 = Cell.alive) ∧
      (∃ x, x < 3 ∧ Zoo.r_pentomino.get x 2 = Cell.alive) ∧
      (∃ y, y < 3 ∧ Zoo.r_pentomino.get 0 y = Cell.alive) ∧
      (∃ y, y < 3 ∧ Zoo.r_pentomino.get 2 y = Cell.alive)) ∧
    (Zoo.light_weight_spaceship.width = 5 ∧
      Zoo.light_weight_spaceship.height = 4 ∧
      (∃ x, x < 5 ∧ Zoo.light_weight_spaceship.get x 0 = Cell.alive) ∧
      (∃ x, x < 5 ∧ Zoo.light_weight_spaceship.get x 3 = Cell.alive) ∧
      (∃ y, y < 4 ∧ Zoo.light_weight_spaceship.get 0 y = Cell.alive) ∧
      (∃ y, y < 4 ∧ Zoo.light_weight_spaceship.get 4 y = Cell.alive)) := by
  decide

theorem getD_map_range {α : Type _} (n : Nat) (f : Nat → α) (k : Nat) (d : α) :
    ((List.range n).map f).getD k d = if k < n then f k else d := by
  simp only [List.getD_eq_getElem?_getD, List.getElem?_map]
  by_cases hk : k < n
  · rw [List.getElem?_range hk, if_pos hk]
    rfl
  · rw [List.getElem?_eq_none (by simpa using hk), if_neg hk]
    rfl

theorem index_lt {w h x y : Nat} (hx : x < w) (hy : y < h) : y * w + x < w * h := by
  have h1 : y * w + x < (y + 1) * w := by
    rw [Nat.succ_mul]
    omega
  have h2 : (y + 1) * w ≤ h * w := Nat.mul_le_mul_right w (by omega)
  rw [Nat.mul_comm w h]
  omega

theorem index_div_mod {w x y : Nat} (hx : x < w) :
    (y * w + x) / w = y ∧ (y * w + x) % w = x := by
  have hw : 0 < w := by omega
  constructor
  · rw [Nat.add_comm, Nat.add_mul_div_right _ _ hw, Nat.div_eq_of_lt hx]
    omega
  · rw [Nat.add_comm, Nat.add_mul_mod_self_right, Nat.mod_eq_of_lt hx]

theorem cellChar_valid (c : Cell) : (cellChar c == '#' || cellChar c == ' ') = true := by
  cases c <;> decide

theorem wfLine_saved (g : Grid) (y : Nat) :
    wfLine g.width
      (String.mk ((List.range g.width).map (fun x => cellChar (g.get x y)))) = true := by
  simp only [wfLine, String.length_mk, List.length_map, List.length_range,
    beq_self_eq_true, Bool.true_and]
  rw [List.all_eq_true]
  intro c hc
  have hc2 : c ∈ (List.range g.width).map (fun x => cellChar (g.get x y)) := hc
  obtain ⟨x, _, hx2⟩ := List.mem_map.mp hc2
  rw [← hx2]
  exact cellChar_valid _

theorem readCellChar_err {c : Char} {e : String}
    (h : Zoo.readCellChar c = Except.error e) : e = "Unknown character" := by
  unfold Zoo.readCellChar at h
  split at h
  · cases h
  · split at h
    · cases h
    · cases h
      rfl

theorem parseRowAux_err_msgs (line : List Char) (y : Nat) :
    ∀ (rem x : Nat) (g : Grid) (e : String),
      Zoo.parseRowAux line y rem x g = Except.error e →
      e = "Line ends unexpectedly" ∨ e = "Unknown character" := by
  intro rem
  induction rem with
  | zero =>
    intro x g e h
    cases h
  | succ rem ih =>
    intro x g e h
    rw [Zoo.parseRowAux] at h
    split at h
    · cases h
      exact Or.inl rfl
    · split at h
      · rename_i hread
        cases h
        exact Or.inr (readCellChar_err hread)
      · rename_i cell hread
        exact ih (x + 1) (g.set x y cell) e h

theorem loadLines_err_msgs (w h : Nat) :
    ∀ (lines : List String) (y : Nat) (G : Grid) (e : String),
      Zoo.loadLines w h lines y G = Except.error e →
      e = "Line ends unexpectedly" ∨ e = "Unknown character" ∨
        e = "Not enough lines to read" := by
  intro lines
  induction lines with
  | nil =>
    intro y G e hload
    rw [Zoo.loadLines] at hload
    split at hload
    · cases hload
      exact Or.inr (Or.inr rfl)
    · cases hload
  | cons line rest ih =>
    intro y G e hload
    rw [Zoo.loadLines] at hload
    split at hload
    · split at hload
      · cases hload
        exact Or.inl rfl
      · split at hload
        · rename_i e2 hrow
          cases hload
          rcases parseRowAux_err_msgs _ _ _ _ _ _ hrow with h1 | h1
          · exact Or.inl h1
          · exact Or.inr (Or.inl h1)
        · rename_i g2 hrow
          exact ih (y + 1) g2 e hload
    · cases hload

theorem loadLines_walk (w h : Nat) :
    ∀ (k : Nat) (lines : List String) (y : Nat) (G : Grid),
      G.width = w → G.height = h → G.cells.length = w * h →
      y + k ≤ h → k ≤ lines.length →
      (∀ j, j < k → wfLine w (lines.getD j "") = true) →
      ∃ G2 : Grid,
        Zoo.loadLines w h lines y G = Zoo.loadLines w h (lines.drop k) (y + k) G2 ∧
        G2.width = w ∧ G2.height = h ∧ G2.cells.length = w * h := by
  intro k
  induction k with
  | zero =>
    intro lines y G h1 h2 h3 h4 h5 h6
    exact ⟨G, by simp, h1, h2, h3⟩
  | succ k ih =>
    intro lines y G h1 h2 h3 h4 h5 h6
    cases lines with
    | nil => simp at h5
    | cons line rest =>
      have hy : y < h := by omega
      have hwf := h6 0 (by omega)
      simp only [List.getD_cons_zero] at hwf
      obtain ⟨hlen, hchars⟩ := wfLine_spec hwf
      set GG : Grid := ⟨G.width, G.height,
        (List.range' 0 w).foldl
          (fun cs j => cs.set (y * G.width + j) (charCell (line.toList.getD j ' ')))
          G.cells⟩ with hGGdef
      have hstep : Zoo.loadLines w h (line :: rest) y G =
          Zoo.loadLines w h rest (y + 1) GG := by
        rw [Zoo.loadLines, if_pos hy, if_neg (by omega : ¬ line.length > w),
          parseRowAux_ok line.toList y w 0 G (fun j hj1 hj2 => hchars j (by omega))]
      have hGGw : GG.width = w := h1
      have hGGh : GG.height = h := h2
      have hGGl : GG.cells.length = w * h := by
        rw [hGGdef]
        show ((List.range' 0 w).foldl _ G.cells).length = w * h
        rw [foldl_set_off_length]
        exact h3
      obtain ⟨G2, hG2eq, hw2, hh2, hl2⟩ := ih rest (y + 1) GG hGGw hGGh hGGl
        (by omega) (by simp only [List.length_cons] at h5; omega)
        (fun j hj => by
          have := h6 (j + 1) (by omega)
          simpa using this)
      refine ⟨G2, ?_, hw2, hh2, hl2⟩
      rw [hstep, hG2eq]
      have hdrop : (line :: rest).drop (k + 1) = rest.drop k := rfl
      have hsum : y + (k + 1) = (y + 1) + k := by omega
      rw [hdrop, hsum]

theorem cells_getD_eq_getElem (l : List Cell) (i : Nat) (hl : i < l.length) :
    l.getD i Cell.dead = l[i] := by
  rw [List.getD_eq_getElem?_getD, List.getElem?_eq_getElem hl]
  rfl

/-- C2: saving any well-formed grid with `save_ascii` and loading the
result with `load_ascii` succeeds and reproduces the grid: same width,
same height, and the same Cell value at every coordinate (x, y) with
x below the width and y below the height; in particular this holds for
all-Dead, all-Alive and mixed grids. -/
theorem c2_ascii_round_trip (g : Grid) :
    ∃ g2 : Grid, Zoo.load_ascii (Zoo.save_ascii g) = Except.ok g2 ∧
      g2.width = g.width ∧ g2.height = g.height ∧
      ∀ x y, x < g.width → y < g.height → g2.get x y = g.get x y := by
  set L : List String := (List.range g.height).map (fun y =>
    String.mk ((List.range g.width).map (fun x => cellChar (g.get x y)))) with hLdef
  have hL : Zoo.load_ascii (Zoo.save_ascii g) =
      Zoo.loadLines g.width g.height L 0 (Grid.mkDead g.width g.height) := by
    rw [Zoo.load_ascii,
      if_neg (by push_neg; exact ⟨Int.natCast_nonneg _, Int.natCast_nonneg _⟩)]
    rfl
  rw [hL]
  obtain ⟨R, hR1, hR2, hR3, hR4, hR5⟩ :=
    loadLines_ok g.width g.height L 0 (Grid.mkDead g.width g.height) rfl rfl
      (by simp [Grid.mkDead]) (by omega) (by rw [hLdef]; simp)
      (fun k hk => by
        rw [hLdef, getD_map_range, if_pos (by omega)]
        exact wfLine_saved g k)
  refine ⟨R, hR1, hR2, hR3, fun x y hx hy => ?_⟩
  have hidx := index_lt hx hy
  have hR5i := hR5 (y * g.width + x) hidx
  rw [if_neg (by simp)] at hR5i
  obtain ⟨hdiv, hmod⟩ := index_div_mod (y := y) hx
  rw [hdiv, hmod, Nat.sub_zero, hLdef, getD_map_range, if_pos hy] at hR5i
  have htl : (String.mk ((List.range g.width).map
      (fun x2 => cellChar (g.get x2 y)))).toList =
      (List.range g.width).map (fun x2 => cellChar (g.get x2 y)) := rfl
  rw [htl, getD_map_range, if_pos hx, charCell_cellChar] at hR5i
  rw [Grid.get, Grid.get_index, hR2]
  exact hR5i

theorem c2_ascii_round_trip_witness :
    ∃ g2 : Grid, Zoo.load_ascii (Zoo.save_ascii Zoo.glider) = Except.ok g2 ∧
      g2.width = Zoo.glider.width ∧ g2.height = Zoo.glider.height ∧
      ∀ x y, x < Zoo.glider.width → y < Zoo.glider.height →
        g2.get x y = Zoo.glider.get x y :=
  c2_ascii_round_trip Zoo.glider

/-- C10: with a valid non-negative header and height well-formed data
lines, load_ascii succeeds, and any additional trailing lines are
ignored: the result equals the result on the first height lines alone,
so extra lines are never read as cells and never cause an error. -/
theorem c10_trailing_lines_ignored (w h : Nat) (lines : List String)
    (hlen : h ≤ lines.length)
    (hwf : ∀ k, k < h → wfLine w (lines.getD k "") = true) :
    (∃ g2 : Grid, Zoo.load_ascii ⟨(w : Int), (h : Int), lines⟩ = Except.ok g2) ∧
      Zoo.load_ascii ⟨(w : Int), (h : Int), lines⟩ =
        Zoo.load_ascii ⟨(w : Int), (h : Int), lines.take h⟩ := by
  have hnn : ¬ (((w : Int)) < 0 ∨ ((h : Int)) < 0) := by
    push_neg
    exact ⟨Int.natCast_nonneg _, Int.natCast_nonneg _⟩
  have hL1 : Zoo.load_ascii ⟨(w : Int), (h : Int), lines⟩ =
      Zoo.loadLines w h lines 0 (Grid.mkDead w h) := by
    rw [Zoo.load_ascii, if_neg hnn]
    rfl
  have hL2 : Zoo.load_ascii ⟨(w : Int), (h : Int), lines.take h⟩ =
      Zoo.loadLines w h (lines.take h) 0 (Grid.mkDead w h) := by
    rw [Zoo.load_ascii, if_neg hnn]
    rfl
  have htake : ∀ k, k < h → (lines.take h).getD k "" = lines.getD k "" := by
    intro k hk
    simp only [List.getD_eq_getElem?_getD]
    rw [List.getElem?_take_of_lt hk]
  obtain ⟨R1, hA1, hw1, hh1, hl1, hp1⟩ :=
    loadLines_ok w h lines 0 (Grid.mkDead w h) rfl rfl (by simp [Grid.mkDead])
      (by omega) (by omega) (fun k hk => hwf k (by omega))
  obtain ⟨R2, hA2, hw2, hh2, hl2, hp2⟩ :=
    loadLines_ok w h (lines.take h) 0 (Grid.mkDead w h) rfl rfl
      (by simp [Grid.mkDead]) (by omega)
      (by rw [List.length_take]; omega)
      (fun k hk => by
        rw [htake k (by omega)]
        exact hwf k (by omega))
  have hR12 : R1 = R2 := by
    obtain ⟨w1, h1, c1⟩ := R1
    obtain ⟨w2, h2, c2⟩ := R2
    simp only at hw1 hh1 hl1 hw2 hh2 hl2
    have hcw : w1 = w2 := by rw [hw1, hw2]
    have hch : h1 = h2 := by rw [hh1, hh2]
    have hcc : c1 = c2 := by
      apply List.ext_getElem (by rw [hl1, hl2])
      intro i hi1 hi2
      have hiwh : i < w * h := by
        rw [hl1] at hi1
        exact hi1
      have he1 := hp1 i hiwh
      have he2 := hp2 i hiwh
      simp only at he1 he2
      rw [if_neg (by simp)] at he1 he2
      have hdq : i / w < h := by
        have hw0 : 0 < w := by
          rcases Nat.eq_zero_or_pos w with h0 | h0
          · subst h0
            simp at hiwh
          · exact h0
        rw [Nat.div_lt_iff_lt_mul hw0, Nat.mul_comm]
        exact hiwh
      rw [Nat.sub_zero] at he1 he2
      rw [htake (i / w) hdq] at he2
      rw [← cells_getD_eq_getElem c1 i hi1, ← cells_getD_eq_getElem c2 i hi2,
        he1, he2]
    rw [hcw, hch, hcc]
  refine ⟨⟨R1, hL1.trans hA1⟩, ?_⟩
  rw [hL1, hA1, hL2, hA2, hR12]

theorem c10_trailing_lines_ignored_witness :
    (2 ≤ (["##", "@!$", "x"] : List String).length ∧
      (∀ k, k < 2 → wfLine 1 ((["##", "@!$", "x"] : List String).getD k "") = true) →
        False) ∨
    ((∃ g2 : Grid,
        Zoo.load_ascii ⟨((1 : Nat) : Int), ((2 : Nat) : Int), ["#", " ", "@!$", "x"]⟩ =
          Except.ok g2) ∧
      Zoo.load_ascii ⟨((1 : Nat) : Int), ((2 : Nat) : Int), ["#", " ", "@!$", "x"]⟩ =
        Zoo.load_ascii ⟨((1 : Nat) : Int), ((2 : Nat) : Int),
          (["#", " ", "@!$", "x"] : List String).take 2⟩) :=
  Or.inr (c10_trailing_lines_ignored 1 2 ["#", " ", "@!$", "x"] (by decide)
    (by decide))

/-- C7: with a valid non-negative header, if the data lines before line k
are well formed and line k (k below the declared height) has length
different from the declared width — longer, or shorter with the
characters up to its end all valid so that reading reaches the line's
end — then load_ascii fails with the line-ends-unexpectedly
FormatError and returns no grid. -/
theorem c7_line_length_mismatch (w h : Nat) (lines : List String) (k : Nat)
    (hk : k < h) (hkl : k < lines.length)
    (hprev : ∀ j, j < k → wfLine w (lines.getD j "") = true)
    (hbad : (lines.getD k "").length > w ∨
      ((lines.getD k "").length < w ∧
        ∀ m, m < (lines.getD k "").length →
          ∃ c, (lines.getD k "").toList.get? m = some c ∧ (c = '#' ∨ c = ' '))) :
    Zoo.load_ascii ⟨(w : Int), (h : Int), lines⟩ =
      Except.error "Line ends unexpectedly" ∧
      errKind "Line ends unexpectedly" = ErrKind.formatError := by
  refine ⟨?_, by decide⟩
  have hL : Zoo.load_ascii ⟨(w : Int), (h : Int), lines⟩ =
      Zoo.loadLines w h lines 0 (Grid.mkDead w h) := by
    rw [Zoo.load_ascii,
      if_neg (by push_neg; exact ⟨Int.natCast_nonneg _, Int.natCast_nonneg _⟩)]
    rfl
  rw [hL]
  obtain ⟨G2, heq, hgw, hgh, hgl⟩ := loadLines_walk w h k lines 0 (Grid.mkDead w h)
    rfl rfl (by simp [Grid.mkDead]) (by omega) (by omega) hprev
  rw [heq]
  have hdrop : lines.drop k = lines.getD k "" :: lines.drop (k + 1) := by
    rw [List.drop_eq_getElem_cons hkl]
    congr 1
    rw [List.getD_eq_getElem?_getD, List.getElem?_eq_getElem hkl]
    rfl
  rw [hdrop, Zoo.loadLines, if_pos (by omega : 0 + k < h)]
  rcases hbad with hlong | ⟨hshort, hvalid⟩
  · rw [if_pos hlong]
  · rw [if_neg (by omega)]
    have hlen : (lines.getD k "").toList.length = (lines.getD k "").length := rfl
    rw [parseRowAux_err (lines.getD k "").toList (0 + k) w 0 G2 (by omega)
      (by omega) (fun j hj1 hj2 => hvalid j (by omega))]

theorem c7_line_length_mismatch_witness :
    Zoo.load_ascii ⟨((3 : Nat) : Int), ((2 : Nat) : Int), ["###", "#"]⟩ =
        Except.error "Line ends unexpectedly" ∧
      errKind "Line ends unexpectedly" = ErrKind.formatError :=
  c7_line_length_mismatch 3 2 ["###", "#"] 1 (by decide) (by decide) (by decide)
    (Or.inr (by
      refine ⟨by decide, fun m hm => ?_⟩
      have hm0 : m = 0 := by
        have hlen1 : ((["###", "#"] : List String).getD 1 "").length = 1 := by
          decide
        omega
      subst hm0
      exact ⟨'#', rfl, Or.inl rfl⟩))

/-- C6: load_ascii fails with the FormatError message when the parsed
header width or height is negative, and when both are non-negative
(including zero) it never fails with that header error. -/
theorem c6_header_negative_check (f : AsciiFile) :
    (f.headerW < 0 ∨ f.headerH < 0 →
      Zoo.load_ascii f = Except.error "Width or height is negative" ∧
        errKind "Width or height is negative" = ErrKind.formatError) ∧
    (0 ≤ f.headerW → 0 ≤ f.headerH →
      Zoo.load_ascii f ≠ Except.error "Width or height is negative") := by
  constructor
  · intro hneg
    rw [Zoo.load_ascii, if_pos hneg]
    exact ⟨rfl, by decide⟩
  · intro h1 h2 hcon
    rw [Zoo.load_ascii, if_neg (by omega)] at hcon
    rcases loadLines_err_msgs _ _ _ _ _ _ hcon with h | h | h <;>
      exact absurd h (by decide)

theorem c6_header_negative_check_witness :
    (Zoo.load_ascii ⟨-1, 3, []⟩ = Except.error "Width or height is negative" ∧
      errKind "Width or height is negative" = ErrKind.formatError) ∧
    Zoo.load_ascii ⟨2, 1, ["##"]⟩ ≠ Except.error "Width or height is negative" :=
  ⟨(c6_header_negative_check ⟨-1, 3, []⟩).1 (by decide),
    (c6_header_negative_check ⟨2, 1, ["##"]⟩).2 (by decide) (by decide)⟩

/-- C8: the code bug behind the claim.  When the path cannot be opened
for writing, save_ascii does throw and writes nothing, but the message
it throws is the width-or-height-is-negative one, which the design's
taxonomy classifies as FormatError, not IOError; the IOError message
used by every other open failure in the source is a different one. -/
theorem c8_save_ascii_open_failure_bug :
    Zoo.save_ascii_io false (Grid.mkDead 2 2) =
        Except.error "Width or height is negative" ∧
      errKind "Width or height is negative" = ErrKind.formatError ∧
      errKind "Width or height is negative" ≠ ErrKind.ioError ∧
      errKind "Couldn\x27t open file" = ErrKind.ioError := by
  exact ⟨rfl, by decide, by decide, by decide⟩

theorem foldl_set_range_getD (f : Nat → Cell) (d : Cell) :
    ∀ (n : Nat) (l : List Cell) (j : Nat),
      ((List.range n).foldl (fun cs i => cs.set i (f i)) l).getD j d =
        if j < n ∧ j < l.length then f j else l.getD j d := by
  intro n
  induction n with
  | zero =>
    intro l j
    rw [if_neg (by omega)]
    rfl
  | succ n ih =>
    intro l j
    rw [List.range_succ, List.foldl_append, List.foldl_cons, List.foldl_nil,
      cells_getD_set, foldl_set_length, ih l j]
    by_cases h1 : n = j ∧ j < l.length
    · rw [if_pos h1, if_pos (show j < n + 1 ∧ j < l.length by omega), h1.1]
    · rw [if_neg h1]
      by_cases h2 : j < n ∧ j < l.length
      · rw [if_pos h2, if_pos (by omega)]
      · rw [if_neg h2, if_neg (by omega)]

theorem step_grid_fold (cw : Nat) (f : Nat → Cell) :
    ∀ (n : Nat) (G : Grid), G.width = cw →
      ((List.range n).foldl (fun g i => g.set (i % cw) (i / cw) (f i)) G) =
        ⟨G.width, G.height, (List.range n).foldl (fun cs i => cs.set i (f i)) G.cells⟩ := by
  intro n
  induction n with
  | zero =>
    intro G hG
    rfl
  | succ n ih =>
    intro G hG
    simp only [List.range_succ, List.foldl_append, List.foldl_cons,
      List.foldl_nil]
    rw [ih G hG]
    show Grid.set _ _ _ _ = _
    rw [Grid.set, Grid.get_index]
    have hidx : n / cw * G.width + n % cw = n := by
      rw [hG, Nat.mul_comm, Nat.div_add_mod]
    rw [hidx]

/-- C3: after one step, every cell of the current grid follows the
standard Game of Life rule applied to the previous current grid: a Dead
cell with exactly 3 alive neighbours becomes Alive, an Alive cell with 2
or 3 alive neighbours stays Alive, and every other cell becomes Dead,
with neighbours counted by count_neighbours under the given toroidal
flag. -/
theorem c3_step_follows_rule (w : World) (hwf : w.Wf) (t : Bool) (x y : Nat)
    (hx : x < w.current.width) (hy : y < w.current.height) :
    (w.step t).current.get x y =
      (if w.current.get x y = Cell.dead then
        (if World.count_neighbours w.current x y t = 3 then Cell.alive
          else Cell.dead)
      else
        (if World.count_neighbours w.current x y t = 2 ∨
            World.count_neighbours w.current x y t = 3 then Cell.alive
          else Cell.dead)) := by
  obtain ⟨hwfc, hwfn, hnw, hnh⟩ := hwf
  have hrule : ∀ (c : Cell) (n : Nat),
      nextCell c n =
        (if c = Cell.dead then (if n = 3 then Cell.alive else Cell.dead)
          else (if n = 2 ∨ n = 3 then Cell.alive else Cell.dead)) := by
    intro c n
    cases c
    · simp [nextCell]
    · simp [nextCell]
  rw [← hrule]
  have hstep : (w.step t).current =
      ⟨w.next.width, w.next.height,
        (List.range (w.current.width * w.current.height)).foldl
          (fun cs i =>
            cs.set i
              (nextCell (w.current.get (i % w.current.width) (i / w.current.width))
                (World.count_neighbours w.current (i % w.current.width)
                  (i / w.current.width) t)))
          w.next.cells⟩ := by
    show (List.range (w.current.width * w.current.height)).foldl _ w.next = _
    rw [step_grid_fold w.current.width _ (w.current.width * w.current.height)
      w.next hnw]
  rw [hstep, Grid.get, Grid.get_index]
  show ((List.range (w.current.width * w.current.height)).foldl _
      w.next.cells).getD (y * w.next.width + x) Cell.dead = _
  rw [foldl_set_range_getD, hnw]
  have hidx : y * w.current.width + x < w.current.width * w.current.height :=
    index_lt hx hy
  have hlen : w.next.cells.length = w.current.width * w.current.height := by
    rw [hwfn, hnw, hnh]
  rw [if_pos (by omega)]
  obtain ⟨hdiv, hmod⟩ := index_div_mod (y := y) hx
  rw [hdiv, hmod]

theorem c3_step_follows_rule_witness :
    (World.mk Zoo.glider (Grid.mkDead 3 3)).Wf ∧
      ((World.mk Zoo.glider (Grid.mkDead 3 3)).step false).current.get 1 1 =
        (if (World.mk Zoo.glider (Grid.mkDead 3 3)).current.get 1 1 = Cell.dead then
          (if World.count_neighbours
              (World.mk Zoo.glider (Grid.mkDead 3 3)).current 1 1 false = 3 then
            Cell.alive else Cell.dead)
        else
          (if World.count_neighbours
                (World.mk Zoo.glider (Grid.mkDead 3 3)).current 1 1 false = 2 ∨
              World.count_neighbours
                (World.mk Zoo.glider (Grid.mkDead 3 3)).current 1 1 false = 3 then
            Cell.alive else Cell.dead)) :=
  ⟨⟨by decide, by decide, rfl, rfl⟩,
    c3_step_follows_rule (World.mk Zoo.glider (Grid.mkDead 3 3))
      ⟨by decide, by decide, rfl, rfl⟩ false 1 1 (by decide) (by decide)⟩

theorem allBits_nil : allBits [] = [] := rfl

theorem allBits_cons (c : Nat) (l : List Nat) :
    allBits (c :: l) = (List.range 8).map c.testBit ++ allBits l := by
  simp [allBits]

theorem length_allBits (bytes : List Nat) :
    (allBits bytes).length = 8 * bytes.length := by
  induction bytes with
  | nil => rfl
  | cons c l ih =>
    rw [allBits_cons, List.length_append, ih]
    simp only [List.length_map, List.length_range, List.length_cons]
    omega

theorem getD_append {α : Type _} (l1 l2 : List α) (i : Nat) (d : α) :
    (l1 ++ l2).getD i d =
      if i < l1.length then l1.getD i d else l2.getD (i - l1.length) d := by
  simp only [List.getD_eq_getElem?_getD]
  by_cases h : i < l1.length
  · rw [List.getElem?_append_left h, if_pos h]
  · rw [List.getElem?_append_right (by omega), if_neg h]

theorem getD_map_lt {α β : Type _} (f : α → β) (l : List α) (i : Nat) (da : α)
    (db : β) (hi : i < l.length) : (l.map f).getD i db = f (l.getD i da) := by
  simp only [List.getD_eq_getElem?_getD, List.getElem?_map,
    List.getElem?_eq_getElem hi]
  rfl

theorem getD_replicate_false (n i : Nat) :
    (List.replicate n false).getD i false = false := by
  simp only [List.getD_eq_getElem?_getD, List.getElem?_replicate]
  by_cases h : i < n <;> simp [h]

theorem map_testBit_range8 (size buffer : Nat) (hs : size ≤ 8)
    (hb : buffer < 2 ^ size) :
    (List.range 8).map buffer.testBit =
      (List.range size).map buffer.testBit ++ List.replicate (8 - size) false := by
  have h8 : 8 - size + size = 8 := by omega
  have hsplit := List.range'_append_1 0 size (8 - size)
  rw [Nat.zero_add, h8] at hsplit
  rw [List.range_eq_range', ← hsplit, List.map_append, ← List.range_eq_range']
  congr 1
  have hmem : ∀ v ∈ (List.range' size (8 - size)).map buffer.testBit,
      v = false := by
    intro v hv
    obtain ⟨i, hi1, hi2⟩ := List.mem_map.mp hv
    obtain ⟨k, hk1, hk2⟩ := List.mem_range'.mp hi1
    have hsle : size ≤ i := by omega
    rw [← hi2]
    exact Nat.testBit_lt_two_pow
      (Nat.lt_of_lt_of_le hb (Nat.pow_le_pow_right (by omega) hsle))
  have := List.eq_replicate_of_mem hmem
  rw [this]
  congr 1
  simp

theorem map_testBit_orshift (size buffer b : Nat)
    (hb : buffer < 2 ^ size) (hb1 : b ≤ 1) :
    (List.range (size + 1)).map (buffer ||| (b <<< size)).testBit =
      (List.range size).map buffer.testBit ++ [b == 1] := by
  rw [List.range_succ, List.map_append]
  congr 1
  · apply List.map_congr_left
    intro i hi
    have hi2 : i < size := List.mem_range.mp hi
    rw [Nat.testBit_or, Nat.testBit_shiftLeft,
      decide_eq_false (by omega : ¬ size ≤ i)]
    simp
  · simp only [List.map_cons, List.map_nil]
    congr 1
    rw [Nat.testBit_or, Nat.testBit_shiftLeft, Nat.testBit_lt_two_pow hb,
      Nat.sub_self, decide_eq_true (Nat.le_refl size)]
    have hb01 : b = 0 ∨ b = 1 := by omega
    rcases hb01 with h | h <;> subst h <;> decide

theorem allBits_packBits :
    ∀ (bs : List Nat), (∀ b ∈ bs, b ≤ 1) →
      ∀ (size buffer : Nat), size ≤ 7 → buffer < 2 ^ size →
      allBits (packBits bs size buffer) =
        (List.range size).map buffer.testBit ++ bs.map (fun b => b == 1) ++
          List.replicate ((8 - (size + bs.length) % 8) % 8) false := by
  intro bs
  induction bs with
  | nil =>
    intro hb size buffer hs hbuf
    by_cases hsz : 0 < size
    · rw [packBits, if_pos hsz]
      have h1 : allBits [buffer] = (List.range 8).map buffer.testBit := by
        simp [allBits]
      rw [h1, map_testBit_range8 size buffer (by omega) hbuf]
      simp only [List.map_nil, List.append_nil, List.length_nil]
      congr 2
      omega
    · have hsz0 : size = 0 := by omega
      subst hsz0
      rw [packBits, if_neg hsz]
      simp [allBits]
  | cons b rest ih =>
    intro hb size buffer hs hbuf
    have hble : b ≤ 1 := hb b (List.mem_cons_self _ _)
    have hrest : ∀ v ∈ rest, v ≤ 1 := fun v hv => hb v (List.mem_cons_of_mem _ hv)
    have hpow : (2:Nat) ^ (size + 1) = 2 ^ size * 2 := Nat.pow_succ 2 size
    have hbuf2 : buffer ||| (b <<< size) < 2 ^ (size + 1) := by
      apply Nat.or_lt_two_pow
      · omega
      · rw [Nat.shiftLeft_eq]
        have hble2 : b * 2 ^ size ≤ 1 * 2 ^ size := Nat.mul_le_mul_right _ hble
        omega
    by_cases hsz : size + 1 > 7
    · have hsz7 : size = 7 := by omega
      subst hsz7
      simp only [packBits, if_pos hsz]
      rw [allBits_cons, ih hrest 0 0 (by omega) (by omega)]
      have hmap8 : (List.range 8).map (buffer ||| b <<< 7).testBit =
          (List.range 7).map buffer.testBit ++ [b == 1] :=
        map_testBit_orshift 7 buffer b hbuf hble
      rw [hmap8]
      simp only [List.range_zero, List.map_nil, List.nil_append, List.map_cons,
        List.length_cons, List.length_nil]
      have hpad : (8 - (0 + rest.length) % 8) % 8 =
          (8 - (7 + (rest.length + 1)) % 8) % 8 := by omega
      rw [hpad]
      simp only [List.append_assoc, List.singleton_append, List.cons_append,
        List.nil_append]
    · simp only [packBits, if_neg hsz]
      rw [ih hrest (size + 1) _ (by omega) hbuf2]
      rw [map_testBit_orshift size buffer b hbuf hble]
      simp only [List.length_cons]
      have hpad : (8 - (size + 1 + rest.length) % 8) % 8 =
          (8 - (size + (rest.length + 1)) % 8) % 8 := by omega
      rw [hpad]
      simp only [List.append_assoc, List.singleton_append, List.map_cons,
        List.cons_append, List.nil_append]

theorem testBit_allBits (bytes : List Nat) :
    ∀ i, (allBits bytes).getD i false = (bytes.getD (i / 8) 0).testBit (i % 8) := by
  induction bytes with
  | nil =>
    intro i
    simp [allBits]
  | cons c rest ih =>
    intro i
    rw [allBits_cons, getD_append]
    by_cases hi : i < 8
    · rw [if_pos (by simp; omega)]
      rw [getD_map_range, if_pos (by omega)]
      have h1 : i / 8 = 0 := by omega
      have h2 : i % 8 = i := by omega
      rw [h1, h2, List.getD_cons_zero]
    · rw [if_neg (by simp; omega)]
      have hlen : ((List.range 8).map c.testBit).length = 8 := by simp
      rw [hlen, ih (i - 8)]
      have h1 : (i - 8) / 8 = i / 8 - 1 := by omega
      have h2 : (i - 8) % 8 = i % 8 := by omega
      have h3 : 1 ≤ i / 8 := by omega
      rw [h1, h2]
      congr 1
      have h4 : i / 8 = (i / 8 - 1) + 1 := by omega
      conv_rhs => rw [h4]
      rw [List.getD_cons_succ]

theorem flatten_rows_length {α : Type _} (ww : Nat) (f : Nat → Nat → α) :
    ∀ hh : Nat,
      ((List.range hh).map (fun y => (List.range ww).map (fun x => f x y))).flatten.length =
        ww * hh := by
  intro hh
  induction hh with
  | zero => rfl
  | succ hh ih =>
    rw [List.range_succ, List.map_append, List.flatten_append, List.length_append,
      ih]
    simp only [List.map_cons, List.map_nil, List.flatten_cons, List.flatten_nil,
      List.append_nil, List.length_map, List.length_range]
    rw [Nat.mul_succ]

theorem flatten_rows_getD {α : Type _} (ww : Nat) (f : Nat → Nat → α) (d : α) :
    ∀ (hh : Nat) (i : Nat), i < ww * hh →
      ((List.range hh).map (fun y => (List.range ww).map (fun x => f x y))).flatten.getD i d =
        f (i % ww) (i / ww) := by
  intro hh
  induction hh with
  | zero =>
    intro i hi
    omega
  | succ hh ih =>
    intro i hi
    rw [List.range_succ, List.map_append, List.flatten_append, getD_append,
      flatten_rows_length]
    by_cases hlow : i < ww * hh
    · rw [if_pos hlow]
      exact ih i hlow
    · rw [if_neg hlow]
      have hwpos : 0 < ww := by
        rcases Nat.eq_zero_or_pos ww with h0 | h0
        · subst h0
          simp at hi
        · exact h0
      have hmul : ww * (hh + 1) = ww * hh + ww := Nat.mul_succ ww hh
      have hsub : i - ww * hh < ww := by omega
      simp only [List.map_cons, List.map_nil, List.flatten_cons, List.flatten_nil,
        List.append_nil]
      rw [getD_map_range, if_pos hsub]
      have hrw : i = hh * ww + (i - ww * hh) := by
        rw [Nat.mul_comm hh ww]
        omega
      obtain ⟨hdiv, hmod⟩ := index_div_mod (y := hh) hsub
      conv_rhs => rw [hrw]
      rw [hdiv, hmod]

theorem length_rowBits (g : Grid) : (rowBits g).length = g.width * g.height :=
  flatten_rows_length g.width (fun x y => cellBit (g.get x y)) g.height

theorem rowBits_getD (g : Grid) (i : Nat) (hi : i < g.width * g.height) :
    (rowBits g).getD i 0 = cellBit (g.get (i % g.width) (i / g.width)) :=
  flatten_rows_getD g.width (fun x y => cellBit (g.get x y)) 0 g.height i hi

theorem rowBits_le_one (g : Grid) : ∀ b ∈ rowBits g, b ≤ 1 := by
  intro b hb
  obtain ⟨row, hrow, hbrow⟩ := List.mem_flatten.mp hb
  obtain ⟨y, _, hy2⟩ := List.mem_map.mp hrow
  rw [← hy2] at hbrow
  obtain ⟨x, _, hx2⟩ := List.mem_map.mp hbrow
  rw [← hx2]
  cases g.get x y <;> decide

theorem cellBit_beq (c : Cell) :
    (if (cellBit c == 1) = true then Cell.alive else Cell.dead) = c := by
  cases c <;> decide

theorem decLE32_encLE32 (n : Nat) (h : n < 4294967296) :
    decLE32 (encLE32 n) = n := by
  simp only [decLE32, encLE32, List.getD_cons_zero, List.getD_cons_succ]
  omega

theorem decInt32_encLE32 (n : Nat) (h : n < 2147483648) :
    decInt32 (encLE32 n) = (n : Int) := by
  rw [decInt32, decLE32_encLE32 n (by omega)]
  simp only [if_pos (show n < 2147483648 from h)]

theorem loadBitStep_mk (w h : Nat) (s : BinSt) (b : Bool) :
    loadBitStep w h s b =
      (if (if w ≤ s.x then s.y + 1 else s.y) < h then
        { g := s.g.set (if w ≤ s.x then 0 else s.x) (if w ≤ s.x then s.y + 1 else s.y)
            (if b then Cell.alive else Cell.dead),
          x := (if w ≤ s.x then 0 else s.x) + 1,
          y := if w ≤ s.x then s.y + 1 else s.y,
          count := s.count + 1,
          oob := s.oob ||
            !(s.g.inBounds (if w ≤ s.x then 0 else s.x) (if w ≤ s.x then s.y + 1 else s.y)) }
      else
        { g := s.g, x := (if w ≤ s.x then 0 else s.x) + 1,
          y := if w ≤ s.x then s.y + 1 else s.y, count := s.count, oob := s.oob }) := by
  rw [loadBitStep]
  by_cases hx : w ≤ s.x <;>
    simp only [hx, if_true, if_false, ite_true, ite_false] <;>
    split <;> rfl

theorem loadBitStep_frozen (w h : Nat) (s : BinSt) (b : Bool) (hy : h ≤ s.y) :
    (loadBitStep w h s b).g = s.g ∧ (loadBitStep w h s b).count = s.count ∧
      (loadBitStep w h s b).oob = s.oob ∧ h ≤ (loadBitStep w h s b).y := by
  rw [loadBitStep_mk]
  by_cases hx : w ≤ s.x <;>
    simp only [hx, if_true, if_false, ite_true, ite_false] <;>
    rw [if_neg (by omega)] <;>
    exact ⟨rfl, rfl, rfl, by simp only []; omega⟩

theorem loadBitFold_frozen (w h : Nat) :
    ∀ (bs : List Bool) (s : BinSt), h ≤ s.y →
      (bs.foldl (loadBitStep w h) s).g = s.g ∧
      (bs.foldl (loadBitStep w h) s).count = s.count ∧
      (bs.foldl (loadBitStep w h) s).oob = s.oob := by
  intro bs
  induction bs with
  | nil =>
    intro s hy
    exact ⟨rfl, rfl, rfl⟩
  | cons b rest ih =>
    intro s hy
    rw [List.foldl_cons]
    obtain ⟨h1, h2, h3, h4⟩ := loadBitStep_frozen w h s b hy
    obtain ⟨g1, g2, g3⟩ := ih (loadBitStep w h s b) h4
    exact ⟨g1.trans h1, g2.trans h2, g3.trans h3⟩

theorem loadByteStep_frozen (w h : Nat) (s : BinSt) (c : Nat) (hy : h ≤ s.y) :
    loadByteStep w h s c = s := by
  rw [loadByteStep, if_neg (by omega)]

theorem loadByteFold_frozen (w h : Nat) :
    ∀ (payload : List Nat) (s : BinSt), h ≤ s.y →
      payload.foldl (loadByteStep w h) s = s := by
  intro payload
  induction payload with
  | nil =>
    intro s hy
    rfl
  | cons c rest ih =>
    intro s hy
    rw [List.foldl_cons, loadByteStep_frozen w h s c hy]
    exact ih s hy

theorem loadBytes_eq_loadBits (w h : Nat) :
    ∀ (payload : List Nat) (s : BinSt),
      (payload.foldl (loadByteStep w h) s).g =
        ((allBits payload).foldl (loadBitStep w h) s).g ∧
      (payload.foldl (loadByteStep w h) s).count =
        ((allBits payload).foldl (loadBitStep w h) s).count ∧
      (payload.foldl (loadByteStep w h) s).oob =
        ((allBits payload).foldl (loadBitStep w h) s).oob := by
  intro payload
  induction payload with
  | nil =>
    intro s
    exact ⟨rfl, rfl, rfl⟩
  | cons c rest ih =>
    intro s
    rw [List.foldl_cons, allBits_cons, List.foldl_append]
    by_cases hy : s.y < h
    · have hbyte : loadByteStep w h s c =
          ((List.range 8).map c.testBit).foldl (loadBitStep w h) s := by
        rw [loadByteStep, if_pos hy, List.foldl_map]
      rw [hbyte]
      exact ih _
    · rw [loadByteStep_frozen w h s c (by omega),
        loadByteFold_frozen w h rest s (by omega)]
      have hfreeze : h ≤ s.y := by omega
      -- after the eight bits of the skipped byte the cursor row can only grow
      have hyafter : h ≤ (((List.range 8).map c.testBit).foldl (loadBitStep w h) s).y := by
        have haux : ∀ (bs : List Bool) (t : BinSt), h ≤ t.y →
            h ≤ (bs.foldl (loadBitStep w h) t).y := by
          intro bs
          induction bs with
          | nil => intro t ht; exact ht
          | cons b2 rest2 ih2 =>
            intro t ht
            rw [List.foldl_cons]
            exact ih2 _ (loadBitStep_frozen w h t b2 ht).2.2.2
        exact haux _ s hfreeze
      obtain ⟨f1, f2, f3⟩ :=
        loadBitFold_frozen w h ((List.range 8).map c.testBit) s hfreeze
      obtain ⟨g1, g2, g3⟩ :=
        loadBitFold_frozen w h (allBits rest) _ hyafter
      exact ⟨(g1.trans f1).symm, (g2.trans f2).symm, (g3.trans f3).symm⟩

theorem loadBitStep_fill (w h : Nat) (hw : 0 < w) (s : BinSt) (b : Bool) (n : Nat)
    (h1 : s.g.width = w) (h2 : s.g.height = h) (h5 : n < w * h)
    (h6 : if n = 0 then s.x = 0 ∧ s.y = 0
      else s.x = (n - 1) % w + 1 ∧ s.y = (n - 1) / w) :
    loadBitStep w h s b =
      { g := s.g.set (n % w) (n / w) (if b then Cell.alive else Cell.dead),
        x := n % w + 1, y := n / w, count := s.count + 1, oob := s.oob } := by
  have hh : 0 < h := by
    rcases Nat.eq_zero_or_pos h with h0 | h0
    · subst h0
      simp at h5
    · exact h0
  rw [loadBitStep_mk]
  by_cases hn : n = 0
  · rw [if_pos hn] at h6
    obtain ⟨hx0, hy0⟩ := h6
    subst hn
    rw [hx0, hy0]
    have hcx : ¬ w ≤ 0 := by omega
    simp only [hcx, if_false, ite_false]
    simp only [hh, if_true, ite_true]
    simp [Nat.zero_mod, Nat.zero_div, Grid.inBounds, h1, h2, hw, hh]
  · rw [if_neg hn] at h6
    obtain ⟨hx1, hy1⟩ := h6
    have hrlt : (n - 1) % w < w := Nat.mod_lt _ hw
    have hqr : w * ((n - 1) / w) + (n - 1) % w = n - 1 := Nat.div_add_mod _ _
    by_cases hwrap : w ≤ (n - 1) % w + 1
    · have hn2 : n = w * ((n - 1) / w + 1) := by
        rw [Nat.mul_succ]
        omega
      have hmod : n % w = 0 := by
        conv_lhs => rw [hn2]
        exact Nat.mul_mod_right _ _
      have hdiv : n / w = (n - 1) / w + 1 := by
        conv_lhs => rw [hn2]
        exact Nat.mul_div_cancel_left _ hw
      have hyh : (n - 1) / w + 1 < h := by
        by_contra hcon
        have hge : w * h ≤ w * ((n - 1) / w + 1) := Nat.mul_le_mul_left w (by omega)
        omega
      rw [hx1, hy1]
      simp only [hwrap, if_true, ite_true]
      simp only [hyh, if_true, ite_true]
      rw [hmod, hdiv]
      simp [Grid.inBounds, h1, h2, hw, hyh]
    · have hq : (n - 1) / w < h := by
        by_contra hcon
        have hge : w * h ≤ w * ((n - 1) / w) := Nat.mul_le_mul_left w (by omega)
        omega
      have hsplit : n = ((n - 1) % w + 1) + w * ((n - 1) / w) := by omega
      have hmod : n % w = (n - 1) % w + 1 := by
        conv_lhs => rw [hsplit]
        rw [Nat.add_mul_mod_self_left, Nat.mod_eq_of_lt (by omega)]
      have hdiv : n / w = (n - 1) / w := by
        conv_lhs => rw [hsplit]
        rw [Nat.add_mul_div_left _ _ hw, Nat.div_eq_of_lt (by omega)]
        omega
      rw [hx1, hy1]
      simp only [hwrap, if_false, ite_false]
      simp only [hq, if_true, ite_true]
      rw [hmod, hdiv]
      have hxin : (n - 1) % w + 1 < w := by omega
      simp [Grid.inBounds, h1, h2, hq, hxin]

theorem loadBitFold_fill (w h : Nat) (hw : 0 < w) :
    ∀ (bs : List Bool) (s : BinSt) (n : Nat),
      s.g.width = w → s.g.height = h → s.g.cells.length = w * h →
      s.count = n → n + bs.length ≤ w * h →
      (if n = 0 then s.x = 0 ∧ s.y = 0
        else s.x = (n - 1) % w + 1 ∧ s.y = (n - 1) / w) →
      (bs.foldl (loadBitStep w h) s).g.width = w ∧
      (bs.foldl (loadBitStep w h) s).g.height = h ∧
      (bs.foldl (loadBitStep w h) s).g.cells.length = w * h ∧
      (bs.foldl (loadBitStep w h) s).count = n + bs.length ∧
      (bs.foldl (loadBitStep w h) s).oob = s.oob ∧
      (if n + bs.length = 0 then
          (bs.foldl (loadBitStep w h) s).x = 0 ∧
            (bs.foldl (loadBitStep w h) s).y = 0
        else
          (bs.foldl (loadBitStep w h) s).x = (n + bs.length - 1) % w + 1 ∧
            (bs.foldl (loadBitStep w h) s).y = (n + bs.length - 1) / w) ∧
      (∀ j, (bs.foldl (loadBitStep w h) s).g.cells.getD j Cell.dead =
        if n ≤ j ∧ j < n + bs.length then
          (if bs.getD (j - n) false then Cell.alive else Cell.dead)
        else s.g.cells.getD j Cell.dead) := by
  intro bs
  induction bs with
  | nil =>
    intro s n h1 h2 h3 h4 h5 h6
    refine ⟨h1, h2, h3, h4, rfl, h6, fun j => ?_⟩
    rw [if_neg (by simp only [List.length_nil]; omega)]
    rfl
  | cons b rest ih =>
    intro s n h1 h2 h3 h4 h5 h6
    simp only [List.length_cons] at h5
    have hn5 : n < w * h := by omega
    have hstep := loadBitStep_fill w h hw s b n h1 h2 hn5 h6
    rw [List.foldl_cons, hstep]
    simp only [List.length_cons]
    have hidx : (n / w) * w + n % w = n := by
      rw [Nat.mul_comm, Nat.div_add_mod]
    have htw : (s.g.set (n % w) (n / w)
        (if b then Cell.alive else Cell.dead)).width = w := h1
    have hth : (s.g.set (n % w) (n / w)
        (if b then Cell.alive else Cell.dead)).height = h := h2
    have htc : (s.g.set (n % w) (n / w)
          (if b then Cell.alive else Cell.dead)).cells =
        s.g.cells.set n (if b then Cell.alive else Cell.dead) := by
      rw [Grid.set, Grid.get_index, h1, hidx]
    have htl : (s.g.set (n % w) (n / w)
        (if b then Cell.alive else Cell.dead)).cells.length = w * h := by
      rw [htc, List.length_set, h3]
    obtain ⟨i1, i2, i3, i4, i5, i6, i7⟩ := ih
      { g := s.g.set (n % w) (n / w) (if b then Cell.alive else Cell.dead),
        x := n % w + 1, y := n / w, count := s.count + 1, oob := s.oob }
      (n + 1) htw hth htl (by show s.count + 1 = n + 1; omega) (by omega)
      (by
        rw [if_neg (by omega)]
        exact ⟨rfl, rfl⟩)
    refine ⟨i1, i2, i3, by rw [i4]; omega, i5, ?_, fun j => ?_⟩
    · rw [if_neg (by omega)] at i6
      rw [if_neg (by omega)]
      have he : n + 1 + rest.length - 1 = n + (rest.length + 1) - 1 := by omega
      rw [← he]
      exact i6
    · rw [i7 j, htc, cells_getD_set, h3]
      by_cases hj1 : j = n
      · rw [if_neg (by omega), if_pos (show n = j ∧ j < w * h by omega),
          if_pos (show n ≤ j ∧ j < n + (rest.length + 1) by omega)]
        have hz : j - n = 0 := by omega
        rw [hz, List.getD_cons_zero]
      · by_cases hj2 : n + 1 ≤ j ∧ j < n + 1 + rest.length
        · rw [if_pos hj2,
            if_pos (show n ≤ j ∧ j < n + (rest.length + 1) by omega)]
          have hsucc : j - n = (j - (n + 1)) + 1 := by omega
          rw [hsucc, List.getD_cons_succ]
        · rw [if_neg hj2,
            if_neg (show ¬ (n = j ∧ j < w * h) from fun hcon => hj1 hcon.1.symm),
            if_neg (show ¬ (n ≤ j ∧ j < n + (rest.length + 1)) by omega)]

theorem last_index_div_mod (w h : Nat) (hw : 0 < w) (hh : 0 < h) :
    (w * h - 1) / w = h - 1 ∧ (w * h - 1) % w = w - 1 := by
  have hsplit : w * h - 1 = (h - 1) * w + (w - 1) := by
    cases h with
    | zero => omega
    | succ h0 =>
      rw [Nat.succ_sub_one, Nat.mul_succ, Nat.mul_comm w h0]
      omega
  rw [hsplit]
  exact index_div_mod (by omega)

theorem loadBitFold_after_full (w h : Nat) (hh : 0 < h) :
    ∀ (bs : List Bool) (s : BinSt), s.x = w → s.y = h - 1 →
      (bs.foldl (loadBitStep w h) s).g = s.g ∧
        (bs.foldl (loadBitStep w h) s).count = s.count ∧
        (bs.foldl (loadBitStep w h) s).oob = s.oob := by
  intro bs
  cases bs with
  | nil =>
    intro s hx hy
    exact ⟨rfl, rfl, rfl⟩
  | cons b rest =>
    intro s hx hy
    rw [List.foldl_cons]
    have hstep : loadBitStep w h s b =
        { g := s.g, x := 0 + 1, y := s.y + 1, count := s.count, oob := s.oob } := by
      rw [loadBitStep_mk, hx]
      simp only [Nat.le_refl, if_true, ite_true]
      rw [if_neg (by omega)]
    rw [hstep]
    exact loadBitFold_frozen w h rest _ (by show h ≤ s.y + 1; omega)


theorem load_binary_header (w h : Nat) (payload : List Nat)
    (hw : w < 2147483648) (hh : h < 2147483648) :
    Zoo.load_binary (encLE32 w ++ encLE32 h ++ payload) =
      Zoo.load_binary_core w h payload := by
  have hlen : (encLE32 w ++ encLE32 h ++ payload).length = 8 + payload.length := by
    simp [encLE32]
    omega
  have ht1 : (encLE32 w ++ encLE32 h ++ payload).take 4 = encLE32 w := rfl
  have ht2 : ((encLE32 w ++ encLE32 h ++ payload).drop 4).take 4 = encLE32 h := rfl
  have ht3 : (encLE32 w ++ encLE32 h ++ payload).drop 8 = payload := rfl
  simp only [Zoo.load_binary]
  rw [if_neg (by rw [hlen]; omega), ht1, ht2, ht3, decInt32_encLE32 w hw,
    decInt32_encLE32 h hh]
  rw [if_neg (by
    push_neg
    exact ⟨Int.natCast_nonneg _, Int.natCast_nonneg _⟩)]
  simp only [Int.toNat_ofNat]

/-- C5: for a binary input whose header declares a width and a height, if
the payload after the 8-byte header holds fewer than width times height
bits, load_binary fails with the unexpected-end-of-file FormatError and
returns no grid; stated both for the loop on the payload behind a
declared header and for the whole byte stream. -/
theorem c5_truncated_binary (w h : Nat) (payload : List Nat)
    (hshort : 8 * payload.length < w * h) :
    Zoo.load_binary_core w h payload = Except.error "Unexpected end of file" ∧
      (w < 2147483648 → h < 2147483648 →
        Zoo.load_binary (encLE32 w ++ encLE32 h ++ payload) =
          Except.error "Unexpected end of file") ∧
      errKind "Unexpected end of file" = ErrKind.formatError := by
  have hcore : Zoo.load_binary_core w h payload =
      Except.error "Unexpected end of file" := by
    have hw : 0 < w := by
      rcases Nat.eq_zero_or_pos w with h0 | h0
      · subst h0
        simp at hshort
      · exact h0
    obtain ⟨e1, e2, e3⟩ :=
      loadBytes_eq_loadBits w h payload ⟨Grid.mkDead w h, 0, 0, 0, false⟩
    obtain ⟨f1, f2, f3, f4, f5, f6, f7⟩ := loadBitFold_fill w h hw (allBits payload)
      ⟨Grid.mkDead w h, 0, 0, 0, false⟩ 0 rfl rfl (by simp [Grid.mkDead]) rfl
      (by rw [length_allBits]; omega) (by rw [if_pos rfl]; exact ⟨rfl, rfl⟩)
    have hoob : (payload.foldl (loadByteStep w h)
        ⟨Grid.mkDead w h, 0, 0, 0, false⟩).oob = false := by
      rw [e3, f5]
    have hcount : (payload.foldl (loadByteStep w h)
        ⟨Grid.mkDead w h, 0, 0, 0, false⟩).count = 8 * payload.length := by
      rw [e2, f4, length_allBits]
      omega
    simp only [Zoo.load_binary_core, hoob, hcount]
    rw [if_neg (by simp), if_pos (by omega)]
  refine ⟨hcore, fun hw32 hh32 => ?_, by decide⟩
  rw [load_binary_header w h payload hw32 hh32]
  exact hcore

theorem c5_truncated_binary_witness :
    Zoo.load_binary_core 1 1 [] = Except.error "Unexpected end of file" ∧
      (1 < 2147483648 → 1 < 2147483648 →
        Zoo.load_binary (encLE32 1 ++ encLE32 1 ++ []) =
          Except.error "Unexpected end of file") ∧
      errKind "Unexpected end of file" = ErrKind.formatError :=
  c5_truncated_binary 1 1 [] (by decide)

theorem cellBit_eq_one (c : Cell) : (cellBit c == 1) = (c == Cell.alive) := by
  cases c <;> decide

/-- C4: the byte stream written by save_binary is the 4-byte width, the
4-byte height, and then the cells packed row-major with x varying
fastest, least-significant bit of each payload byte first, Alive as 1
and Dead as 0: the payload holds one byte per eight cells, bit
(i mod 8) of payload byte (i div 8) for i = y*width + x equals 1 exactly
when the cell at (x, y) is Alive, and every bit at or beyond
width*height, including the padding of the final byte, is 0. -/
theorem c4_binary_layout (g : Grid) :
    (Zoo.save_binary g).take 4 = encLE32 g.width ∧
    ((Zoo.save_binary g).drop 4).take 4 = encLE32 g.height ∧
    ((Zoo.save_binary g).drop 8).length = (g.width * g.height + 7) / 8 ∧
    (∀ x y, x < g.width → y < g.height →
      (((Zoo.save_binary g).drop 8).getD ((y * g.width + x) / 8) 0).testBit
        ((y * g.width + x) % 8) = (g.get x y == Cell.alive)) ∧
    (∀ i, g.width * g.height ≤ i →
      (((Zoo.save_binary g).drop 8).getD (i / 8) 0).testBit (i % 8) = false) := by
  have hdrop : (Zoo.save_binary g).drop 8 = packBits (rowBits g) 0 0 := rfl
  have hchar := allBits_packBits (rowBits g) (rowBits_le_one g) 0 0 (by omega)
    (by omega)
  simp only [List.range_zero, List.map_nil, List.nil_append, length_rowBits,
    Nat.zero_add] at hchar
  have hmaplen : ((rowBits g).map (fun b => b == 1)).length =
      g.width * g.height := by
    rw [List.length_map, length_rowBits]
  have hlen : (packBits (rowBits g) 0 0).length =
      (g.width * g.height + 7) / 8 := by
    have hl1 := length_allBits (packBits (rowBits g) 0 0)
    rw [hchar, List.length_append, hmaplen, List.length_replicate] at hl1
    omega
  refine ⟨rfl, rfl, by rw [hdrop, hlen], ?_, ?_⟩
  · intro x y hx hy
    have hidx := index_lt hx hy
    rw [hdrop, ← testBit_allBits, hchar, getD_append,
      if_pos (by rw [hmaplen]; exact hidx)]
    rw [getD_map_lt (fun b => b == 1) (rowBits g) _ 0 false
      (by rw [length_rowBits]; exact hidx)]
    rw [rowBits_getD g _ hidx]
    obtain ⟨hdiv, hmod⟩ := index_div_mod (y := y) hx
    rw [hdiv, hmod, cellBit_eq_one]
  · intro i hi
    rw [hdrop, ← testBit_allBits, hchar, getD_append,
      if_neg (by rw [hmaplen]; omega)]
    rw [hmaplen, getD_replicate_false]

theorem c4_binary_layout_witness :
    (((Zoo.save_binary Zoo.glider).drop 8).getD
        ((0 * Zoo.glider.width + 1) / 8) 0).testBit
        ((0 * Zoo.glider.width + 1) % 8) = (Zoo.glider.get 1 0 == Cell.alive) ∧
    (((Zoo.save_binary Zoo.glider).drop 8).getD (10 / 8) 0).testBit (10 % 8) =
      false :=
  ⟨(c4_binary_layout Zoo.glider).2.2.2.1 1 0 (by decide) (by decide),
    (c4_binary_layout Zoo.glider).2.2.2.2 10 (by decide)⟩

/-- C1: saving any grid with save_binary and loading the result with
load_binary succeeds and reproduces the grid: same width, same height,
and the same Cell value at every coordinate (x, y) with x below the
width and y below the height; in particular this holds for all-Dead,
all-Alive and mixed grids.  The dimensions are bounded by the 32-bit
signed int range of the file header. -/
theorem c1_binary_round_trip (g : Grid) (hw : g.width < 2147483648)
    (hh : g.height < 2147483648) :
    ∃ g2 : Grid, Zoo.load_binary (Zoo.save_binary g) = Except.ok g2 ∧
      g2.width = g.width ∧ g2.height = g.height ∧
      ∀ x y, x < g.width → y < g.height → g2.get x y = g.get x y := by
  have hsave : Zoo.save_binary g =
      encLE32 g.width ++ encLE32 g.height ++ packBits (rowBits g) 0 0 := rfl
  rw [hsave, load_binary_header g.width g.height _ hw hh]
  by_cases hwh : g.width * g.height = 0
  · have hrb : rowBits g = [] := List.eq_nil_of_length_eq_zero
      (by rw [length_rowBits]; exact hwh)
    rw [hrb]
    refine ⟨Grid.mkDead g.width g.height, ?_, rfl, rfl, ?_⟩
    · have hpb : packBits [] 0 0 = [] := rfl
      rw [hpb]
      simp only [Zoo.load_binary_core, List.foldl_nil]
      rw [if_neg (by simp), if_neg (fun hcon => hcon hwh.symm)]
    · intro x y hx hy
      exfalso
      have := index_lt hx hy
      omega
  · have hw0 : 0 < g.width := by
      rcases Nat.eq_zero_or_pos g.width with h0 | h0
      · rw [h0] at hwh
        simp at hwh
      · exact h0
    have hh0 : 0 < g.height := by
      rcases Nat.eq_zero_or_pos g.height with h0 | h0
      · rw [h0] at hwh
        simp at hwh
      · exact h0
    have hchar := allBits_packBits (rowBits g) (rowBits_le_one g) 0 0 (by omega)
      (by omega)
    simp only [List.range_zero, List.map_nil, List.nil_append, length_rowBits,
      Nat.zero_add] at hchar
    have hmaplen : ((rowBits g).map (fun b => b == 1)).length =
        g.width * g.height := by
      rw [List.length_map, length_rowBits]
    obtain ⟨e1, e2, e3⟩ := loadBytes_eq_loadBits g.width g.height
      (packBits (rowBits g) 0 0) ⟨Grid.mkDead g.width g.height, 0, 0, 0, false⟩
    rw [hchar, List.foldl_append] at e1 e2 e3
    obtain ⟨f1, f2, f3, f4, f5, f6, f7⟩ := loadBitFold_fill g.width g.height hw0
      ((rowBits g).map (fun b => b == 1))
      ⟨Grid.mkDead g.width g.height, 0, 0, 0, false⟩ 0 rfl rfl
      (by simp [Grid.mkDead]) rfl (by rw [hmaplen]; omega)
      (by rw [if_pos rfl]; exact ⟨rfl, rfl⟩)
    simp only [hmaplen, Nat.zero_add, Nat.sub_zero] at f4 f6 f7
    rw [if_neg hwh] at f6
    obtain ⟨hx6, hy6⟩ := f6
    obtain ⟨hld, hlm⟩ := last_index_div_mod g.width g.height hw0 hh0
    set s1 := ((rowBits g).map (fun b => b == 1)).foldl
      (loadBitStep g.width g.height)
      ⟨Grid.mkDead g.width g.height, 0, 0, 0, false⟩ with hs1
    obtain ⟨p1, p2, p3⟩ := loadBitFold_after_full g.width g.height hh0
      (List.replicate ((8 - (g.width * g.height) % 8) % 8) false) s1
      (by rw [hx6, hlm]; omega) (by rw [hy6, hld])
    refine ⟨s1.g, ?_, f1, f2, ?_⟩
    · have hoobv : ((packBits (rowBits g) 0 0).foldl
          (loadByteStep g.width g.height)
          ⟨Grid.mkDead g.width g.height, 0, 0, 0, false⟩).oob = false := by
        rw [e3, p3, f5]
      have hcountv : ((packBits (rowBits g) 0 0).foldl
          (loadByteStep g.width g.height)
          ⟨Grid.mkDead g.width g.height, 0, 0, 0, false⟩).count =
          g.width * g.height := by
        rw [e2, p2, f4]
      have hgv : ((packBits (rowBits g) 0 0).foldl
          (loadByteStep g.width g.height)
          ⟨Grid.mkDead g.width g.height, 0, 0, 0, false⟩).g = s1.g := by
        rw [e1, p1]
      simp only [Zoo.load_binary_core]
      rw [if_neg (by rw [hoobv]; simp), if_neg (by rw [hcountv]; omega), hgv]
    · intro x y hx hy
      have hidx := index_lt hx hy
      have hj := f7 (y * g.width + x)
      rw [if_pos ⟨by omega, hidx⟩] at hj
      simp only [getD_map_lt (fun b => b == 1) (rowBits g) (y * g.width + x) 0
        false (by rw [length_rowBits]; exact hidx)] at hj
      simp only [rowBits_getD g _ hidx] at hj
      obtain ⟨hdiv, hmod⟩ := index_div_mod (y := y) hx
      simp only [hdiv, hmod] at hj
      rw [cellBit_beq] at hj
      rw [Grid.get, Grid.get_index, f1]
      exact hj

theorem c1_binary_round_trip_witness :
    Zoo.glider.width < 2147483648 ∧
      (∃ g2 : Grid, Zoo.load_binary (Zoo.save_binary Zoo.glider) = Except.ok g2 ∧
        g2.width = Zoo.glider.width ∧ g2.height = Zoo.glider.height ∧
        ∀ x y, x < Zoo.glider.width → y < Zoo.glider.height →
          g2.get x y = Zoo.glider.get x y) :=
  ⟨by decide, c1_binary_round_trip Zoo.glider (by decide) (by decide)⟩
